import Mathlib

/-!
# Two-Layer Injury Extraction Pipeline — Layer 2 Deterministic Evaluator

A shallow embedding of the Layer 2 deterministic evaluator of the injury
extraction pipeline (`src/lib/rnd/schema.ts` for the data model and the
`evaluateEvidence` function for the rule engine), together with theorems
settling the behavioural claims about it.

Modelling conventions:
* the closed vocabulary `ALLOWED_INJURIES` is a list of strings and
  `AllowedInjury` is the subtype of strings belonging to it — the direct
  counterpart of the TypeScript literal-string union
  `typeof ALLOWED_INJURIES[number]`;
* character offsets are naturals;
* JavaScript `Map` (insertion ordered, `set` updates in place) is an
  association list with `mapGet` / `mapSet`;
* `String.prototype.localeCompare` on the lowercase-ASCII label vocabulary
  is the lexicographic order on strings;
* `Array.prototype.sort` with the rule-7 comparator is a stable insertion
  sort with the boolean relation `comparator a b ≤ 0`; on every list the
  evaluator actually sorts the comparator is a strict total order (labels
  are distinct keys of the deduplication map), so the result is the unique
  sorted permutation and the embedding is exact.
-/

/-- The closed vocabulary of injury labels (`ALLOWED_INJURIES` in
`schema.ts`). -/
def ALLOWED_INJURIES : List String :=
  [ "abrasion", "bleeding", "broken skin", "bruising", "bruise", "burn",
    "cut", "contusion", "dislocation", "fracture", "frostbite", "hematoma",
    "hypoglycemia", "incision", "laceration", "pain", "redness",
    "scratches", "skin tear", "scrape", "sprain", "strain", "swelling",
    "unconscious" ]

/-- `AllowedInjury = typeof ALLOWED_INJURIES[number]`: a string constrained
to the closed vocabulary. -/
def AllowedInjury : Type := {s : String // s ∈ ALLOWED_INJURIES}

instance : DecidableEq AllowedInjury := fun a b =>
  decidable_of_iff (a.val = b.val) Subtype.ext_iff.symm

/-- `TemporalRelation` in `schema.ts`. -/
inductive TemporalRelation where
  | post_fall
  | during_fall
  | pre_fall
  | unknown
  deriving DecidableEq

/-- `Certainty` in `schema.ts`. -/
inductive Certainty where
  | explicit
  | implied
  | unclear
  deriving DecidableEq

/-- `InjuryMention` in `schema.ts`. -/
structure InjuryMention where
  text : String
  injury_candidate : Option AllowedInjury
  body_site : Option String
  is_negated : Bool
  negation_text : Option String
  temporal_relation_to_fall : TemporalRelation
  certainty : Certainty
  start_char : Nat
  end_char : Nat
  deriving DecidableEq

/-- `Negation` in `schema.ts` (denial phrases not tied to a mention). -/
structure DenialPhrase where
  text : String
  scope_hint : Option String
  start_char : Nat
  end_char : Nat
  deriving DecidableEq

/-- `NoInjuryStatement` in `schema.ts`. -/
structure NoInjuryStatement where
  text : String
  start_char : Nat
  end_char : Nat
  deriving DecidableEq

/-- `TimingMarker` in `schema.ts`. -/
structure TimingMarker where
  text : String
  start_char : Nat
  end_char : Nat
  deriving DecidableEq

/-- `BodySite` in `schema.ts`. -/
structure BodySite where
  text : String
  start_char : Nat
  end_char : Nat
  deriving DecidableEq

/-- `EvidenceMetadata` in `schema.ts`. -/
structure EvidenceMetadata where
  model_version : String
  extraction_warnings : List String
  deriving DecidableEq

/-- `Layer1Evidence` in `schema.ts`. -/
structure Layer1Evidence where
  injury_mentions : List InjuryMention
  negations : List DenialPhrase
  no_injury_statements : List NoInjuryStatement
  timing_markers : List TimingMarker
  body_sites : List BodySite
  metadata : EvidenceMetadata
  deriving DecidableEq

/-- `FinalInjury` in `schema.ts`: one output record. -/
structure FinalInjury where
  phrase : String
  matched_injury : AllowedInjury
  deriving DecidableEq

/-- `EvaluatorConfig` in `evaluator.ts`. -/
structure EvaluatorConfig where
  excludeNegated : Bool
  respectNoInjuryStatements : Bool
  preferExplicit : Bool
  strictPainEvaluation : Bool
  requireExactMatch : Bool
  deriving DecidableEq

/-- `DEFAULT_CONFIG` in `evaluator.ts`: every switch enabled. -/
def DEFAULT_CONFIG : EvaluatorConfig :=
  { excludeNegated := true
    respectNoInjuryStatements := true
    preferExplicit := true
    strictPainEvaluation := true
    requireExactMatch := true }

/-- `isValidAllowedInjury` in `evaluator.ts`. -/
def isValidAllowedInjury (value : String) : Bool :=
  ALLOWED_INJURIES.contains value

/-- The `pain` label of the closed vocabulary. -/
def painLabel : AllowedInjury := ⟨"pain", by decide⟩

/-- Character-list prefix test. -/
def charsPrefix : List Char → List Char → Bool
  | [], _ => true
  | _ :: _, [] => false
  | a :: as, b :: bs => decide (a = b) && charsPrefix as bs

/-- Character-list substring test (`indexOf needle ≠ -1`). -/
def charsContains (needle : List Char) : List Char → Bool
  | [] => needle.isEmpty
  | c :: rest => charsPrefix needle (c :: rest) || charsContains needle rest

/-- `String.prototype.toLowerCase`, character by character. -/
def lowerChars (cs : List Char) : List Char :=
  cs.map Char.toLower

/-- `String.prototype.trim`: strip leading and trailing whitespace. -/
def trimChars (cs : List Char) : List Char :=
  ((cs.dropWhile Char.isWhitespace).reverse.dropWhile Char.isWhitespace).reverse

/-- `existing.phrase.toLowerCase().indexOf(needle.toLowerCase()) !== -1`:
case-insensitive substring containment. -/
def containsCI (hay needle : String) : Bool :=
  charsContains (lowerChars needle.toList) (lowerChars hay.toList)

/-- Lexicographic strict comparison of character lists (the order behind
`localeCompare` on the ASCII label vocabulary). -/
def charsLt : List Char → List Char → Bool
  | [], [] => false
  | [], _ :: _ => true
  | _ :: _, [] => false
  | a :: as, b :: bs =>
    if a < b then true else if b < a then false else charsLt as bs

/-- `a.localeCompare(b) ≤ 0` on the label vocabulary: `a` not after `b`. -/
def labelLE (a b : String) : Bool :=
  !(charsLt b.toList a.toList)

/-! ## The evaluator, rule by rule -/

/-- Rule 1 of `evaluateEvidence`: keep only mentions with a non-null
`injury_candidate`. -/
def admissibleMentions (evidence : Layer1Evidence) : List InjuryMention :=
  evidence.injury_mentions.filter (fun m => m.injury_candidate.isSome)

/-- Rule 2 of `evaluateEvidence`: when `excludeNegated`, drop mentions with
`is_negated = true`. -/
def negationStep (config : EvaluatorConfig) (ms : List InjuryMention) :
    List InjuryMention :=
  if config.excludeNegated then ms.filter (fun m => !m.is_negated) else ms

/-- The `reduce` of rule 3: the no-injury statement with the largest
`end_char` (first one wins on ties, as `current.end_char > latest.end_char`
is strict). -/
def latestStatement (head : NoInjuryStatement) (tail : List NoInjuryStatement) :
    NoInjuryStatement :=
  tail.foldl
    (fun latest current =>
      if current.end_char > latest.end_char then current else latest) head

/-- Rule 3 of `evaluateEvidence`: global suppression by no-injury
statements. `none` models the early `return []` (short circuit). -/
def suppressionStep (config : EvaluatorConfig) (evidence : Layer1Evidence)
    (ms : List InjuryMention) : Option (List InjuryMention) :=
  if config.respectNoInjuryStatements then
    match evidence.no_injury_statements with
    | [] => some ms
    | s :: rest =>
      let last := latestStatement s rest
      let injuriesAfter := ms.filter (fun m =>
        decide (m.start_char > last.end_char) &&
        decide (m.certainty = Certainty.explicit) &&
        !m.is_negated)
      if injuriesAfter.isEmpty then none else some injuriesAfter
  else some ms

/-- Rule 4 of `evaluateEvidence`: when `preferExplicit` and at least one
surviving mention is explicit, keep only the explicit ones. -/
def preferExplicitStep (config : EvaluatorConfig) (ms : List InjuryMention) :
    List InjuryMention :=
  if config.preferExplicit then
    let explicitMentions := ms.filter (fun m =>
      decide (m.certainty = Certainty.explicit))
    if explicitMentions.isEmpty then ms else explicitMentions
  else ms

/-- The rule 5 acceptance condition for a `pain` mention: a non-empty
trimmed `body_site`, or a post-fall / during-fall explicit mention. -/
def painAdmissible (m : InjuryMention) : Bool :=
  let hasBodySite :=
    match m.body_site with
    | some b => !(trimChars b.toList).isEmpty
    | none => false
  let isPostFall :=
    decide (m.temporal_relation_to_fall = TemporalRelation.post_fall) ||
    decide (m.temporal_relation_to_fall = TemporalRelation.during_fall)
  let isExplicit := decide (m.certainty = Certainty.explicit)
  hasBodySite || (isPostFall && isExplicit)

/-- Rule 5 of `evaluateEvidence`: when `strictPainEvaluation`, a mention
labelled `pain` must pass `painAdmissible`; every other mention passes. -/
def strictPainStep (config : EvaluatorConfig) (ms : List InjuryMention) :
    List InjuryMention :=
  if config.strictPainEvaluation then
    ms.filter (fun m =>
      if m.injury_candidate = some painLabel then painAdmissible m else true)
  else ms

/-- The rule 6 replacement test: a later mention replaces the current
representative iff its text is strictly longer, or it has a body site that
the current phrase does not contain (case-insensitively). -/
def shouldReplace (m : InjuryMention) (existing : FinalInjury) : Bool :=
  decide (m.text.length > existing.phrase.length) ||
  (match m.body_site with
   | some b => !(containsCI existing.phrase b)
   | none => false)

/-- JS `Map.prototype.get` over an insertion-ordered association list. -/
def mapGet (key : AllowedInjury) :
    List (AllowedInjury × FinalInjury) → Option FinalInjury
  | [] => none
  | (k, v) :: rest => if k = key then some v else mapGet key rest

/-- JS `Map.prototype.set`: update in place when the key exists, append
otherwise. -/
def mapSet (key : AllowedInjury) (v : FinalInjury) :
    List (AllowedInjury × FinalInjury) → List (AllowedInjury × FinalInjury)
  | [] => [(key, v)]
  | (k, w) :: rest =>
    if k = key then (key, v) :: rest else (k, w) :: mapSet key v rest

/-- One iteration of the rule 6 loop over `validMentions`. -/
def dedupInsert (acc : List (AllowedInjury × FinalInjury))
    (m : InjuryMention) : List (AllowedInjury × FinalInjury) :=
  match m.injury_candidate with
  | none => acc
  | some key =>
    match mapGet key acc with
    | none => mapSet key ⟨m.text, key⟩ acc
    | some existing =>
      if shouldReplace m existing then mapSet key ⟨m.text, key⟩ acc else acc

/-- Rule 6 of `evaluateEvidence`: the deduplication map, built by folding
the surviving mentions in order. -/
def dedup (ms : List InjuryMention) : List (AllowedInjury × FinalInjury) :=
  ms.foldl dedupInsert []

/-- The `find` of the rule 7 comparator: the first surviving mention whose
candidate and text equal the entry's label and phrase. -/
def findRep (ms : List InjuryMention) (f : FinalInjury) :
    Option InjuryMention :=
  ms.find? (fun m =>
    decide (m.injury_candidate = some f.matched_injury) &&
    decide (m.text = f.phrase))

/-- The rule 7 comparator as a boolean `comparator a b ≤ 0` relation: when
both representatives are found and their `start_char`s differ, compare
those; otherwise compare labels (`localeCompare`). -/
def sortLE (ms : List InjuryMention) (a b : FinalInjury) : Bool :=
  match findRep ms a, findRep ms b with
  | some ma, some mb =>
    if ma.start_char ≠ mb.start_char then decide (ma.start_char < mb.start_char)
    else labelLE a.matched_injury.val b.matched_injury.val
  | _, _ => labelLE a.matched_injury.val b.matched_injury.val

/-- Insert into a sorted list, keeping earlier equal elements first. -/
def insertSorted (le : α → α → Bool) (x : α) : List α → List α
  | [] => [x]
  | y :: ys => if le x y then x :: y :: ys else y :: insertSorted le x ys

/-- Stable insertion sort by a boolean relation. -/
def sortByLE (le : α → α → Bool) (l : List α) : List α :=
  l.foldr (insertSorted le) []

/-- `evaluateEvidence` in `evaluator.ts`: the Layer 2 deterministic
evaluator, rules 1–7 in order. -/
def evaluateEvidence (evidence : Layer1Evidence)
    (config : EvaluatorConfig := DEFAULT_CONFIG) : List FinalInjury :=
  let validMentions1 := admissibleMentions evidence
  let validMentions2 := negationStep config validMentions1
  match suppressionStep config evidence validMentions2 with
  | none => []
  | some validMentions3 =>
    let validMentions4 := preferExplicitStep config validMentions3
    let validMentions5 := strictPainStep config validMentions4
    let injuryMap := dedup validMentions5
    sortByLE (sortLE validMentions5) (injuryMap.map Prod.snd)

/-- The survivors of rules 1–3 (`none` when rule 3 short-circuits). -/
def mentionsAfterRule3 (evidence : Layer1Evidence)
    (config : EvaluatorConfig) : Option (List InjuryMention) :=
  suppressionStep config evidence
    (negationStep config (admissibleMentions evidence))

/-- The mentions alive at rules 6–7 (empty when rule 3 short-circuited). -/
def survivors (evidence : Layer1Evidence) (config : EvaluatorConfig) :
    List InjuryMention :=
  match mentionsAfterRule3 evidence config with
  | none => []
  | some ms => strictPainStep config (preferExplicitStep config ms)

/-! ## Generic facts about the insertion sort -/

theorem mem_insertSorted {le : α → α → Bool} {x a : α} {l : List α} :
    a ∈ insertSorted le x l ↔ a = x ∨ a ∈ l := by
  induction l with
  | nil => simp [insertSorted]
  | cons y ys ih =>
    simp only [insertSorted]
    split
    · simp [List.mem_cons]
    · simp only [List.mem_cons, ih]
      tauto

theorem perm_insertSorted (le : α → α → Bool) (x : α) (l : List α) :
    (insertSorted le x l).Perm (x :: l) := by
  induction l with
  | nil => simp [insertSorted]
  | cons y ys ih =>
    simp only [insertSorted]
    split
    · exact List.Perm.refl _
    · exact (ih.cons y).trans (List.Perm.swap x y ys)

theorem perm_sortByLE (le : α → α → Bool) (l : List α) :
    (sortByLE le l).Perm l := by
  induction l with
  | nil => simp [sortByLE]
  | cons x xs ih =>
    have hstep : sortByLE le (x :: xs) = insertSorted le x (sortByLE le xs) := rfl
    rw [hstep]
    exact (perm_insertSorted le x (sortByLE le xs)).trans (ih.cons x)

theorem mem_sortByLE {le : α → α → Bool} {a : α} {l : List α} :
    a ∈ sortByLE le l ↔ a ∈ l :=
  (perm_sortByLE le l).mem_iff

theorem pairwise_insertSorted {le : α → α → Bool} {x : α} {l : List α}
    (tot : ∀ a b, le a b = true ∨ le b a = true)
    (trans : ∀ a ∈ x :: l, ∀ b ∈ x :: l, ∀ c ∈ x :: l,
      le a b = true → le b c = true → le a c = true)
    (h : l.Pairwise (fun a b => le a b = true)) :
    (insertSorted le x l).Pairwise (fun a b => le a b = true) := by
  induction l with
  | nil => simp [insertSorted]
  | cons y ys ih =>
    rw [List.pairwise_cons] at h
    simp only [insertSorted]
    split
    · rename_i hxy
      refine List.Pairwise.cons ?_ (List.Pairwise.cons h.1 h.2)
      intro z hz
      rcases List.mem_cons.mp hz with rfl | hz'
      · exact hxy
      · exact trans x (List.mem_cons_self _ _) y (by simp) z
          (by simp [hz']) hxy (h.1 z hz')
    · rename_i hxy
      have hyx : le y x = true := (tot x y).resolve_left hxy
      refine List.Pairwise.cons ?_ ?_
      · intro z hz
        rcases mem_insertSorted.mp hz with rfl | hz'
        · exact hyx
        · exact h.1 z hz'
      · refine ih ?_ h.2
        intro a ha b hb c hc
        have sub : ∀ z, z ∈ x :: ys → z ∈ x :: y :: ys := by
          intro z hz
          rcases List.mem_cons.mp hz with rfl | hz'
          · exact List.mem_cons_self _ _
          · exact List.mem_cons_of_mem _ (List.mem_cons_of_mem _ hz')
        exact trans a (sub a ha) b (sub b hb) c (sub c hc)

theorem pairwise_sortByLE {le : α → α → Bool} {l : List α}
    (tot : ∀ a b, le a b = true ∨ le b a = true)
    (trans : ∀ a ∈ l, ∀ b ∈ l, ∀ c ∈ l,
      le a b = true → le b c = true → le a c = true) :
    (sortByLE le l).Pairwise (fun a b => le a b = true) := by
  induction l with
  | nil => simp [sortByLE]
  | cons x xs ih =>
    have hstep : sortByLE le (x :: xs) = insertSorted le x (sortByLE le xs) := rfl
    rw [hstep]
    refine pairwise_insertSorted tot ?_ ?_
    · intro a ha b hb c hc
      have hsub : ∀ z, z ∈ x :: sortByLE le xs → z ∈ x :: xs := by
        intro z hz
        rcases List.mem_cons.mp hz with rfl | hz'
        · exact List.mem_cons_self _ _
        · exact List.mem_cons_of_mem _ (mem_sortByLE.mp hz')
      exact trans a (hsub a ha) b (hsub b hb) c (hsub c hc)
    · refine ih ?_
      intro a ha b hb c hc
      exact trans a (List.mem_cons_of_mem _ ha) b (List.mem_cons_of_mem _ hb)
        c (List.mem_cons_of_mem _ hc)

/-! ## The label order -/

theorem charsLt_iff (cs ds : List Char) :
    charsLt cs ds = true ↔ List.Lex (· < ·) cs ds := by
  induction cs generalizing ds with
  | nil =>
    cases ds with
    | nil => simp [charsLt]
    | cons d ds' => simp [charsLt, List.Lex.nil]
  | cons a as ih =>
    cases ds with
    | nil => simp [charsLt]
    | cons b bs =>
      simp only [charsLt]
      split
      · rename_i hab
        simp only [true_iff]
        exact List.Lex.rel hab
      · split
        · rename_i hab hba
          simp only [Bool.false_eq_true, false_iff]
          intro h
          cases h with
          | rel h' => exact hab h'
          | cons h' => exact hab hba
        · rename_i hab hba
          have hEq : a = b := le_antisymm (not_lt.mp hba) (not_lt.mp hab)
          subst hEq
          rw [ih]
          exact List.Lex.cons_iff.symm

theorem charsLt_iff_lt (s t : String) :
    charsLt s.toList t.toList = true ↔ s < t := by
  rw [charsLt_iff, String.lt_iff_toList_lt]
  exact Iff.rfl

theorem labelLE_iff (a b : String) : labelLE a b = true ↔ a ≤ b := by
  have h : labelLE a b = !charsLt b.toList a.toList := rfl
  rw [h, Bool.not_eq_true', ← Bool.not_eq_true, charsLt_iff_lt]
  exact not_lt

theorem labelLE_total (a b : String) :
    labelLE a b = true ∨ labelLE b a = true := by
  rcases le_total a b with h | h
  · exact Or.inl ((labelLE_iff a b).mpr h)
  · exact Or.inr ((labelLE_iff b a).mpr h)

theorem labelLE_trans {a b c : String} (h₁ : labelLE a b = true)
    (h₂ : labelLE b c = true) : labelLE a c = true :=
  (labelLE_iff a c).mpr (le_trans ((labelLE_iff a b).mp h₁) ((labelLE_iff b c).mp h₂))

/-! ## Facts about the deduplication map -/

theorem mapGet_mapSet_self (key : AllowedInjury) (v : FinalInjury)
    (acc : List (AllowedInjury × FinalInjury)) :
    mapGet key (mapSet key v acc) = some v := by
  induction acc with
  | nil => simp [mapGet, mapSet]
  | cons p rest ih =>
    obtain ⟨k, w⟩ := p
    by_cases hk : k = key
    · simp [mapSet, mapGet, hk]
    · simp [mapSet, mapGet, hk, ih]

theorem mapGet_mapSet_ne {k' key : AllowedInjury} (h : k' ≠ key)
    (v : FinalInjury) (acc : List (AllowedInjury × FinalInjury)) :
    mapGet k' (mapSet key v acc) = mapGet k' acc := by
  induction acc with
  | nil =>
    simp only [mapSet, mapGet]
    rw [if_neg (Ne.symm h)]
  | cons p rest ih =>
    obtain ⟨k, w⟩ := p
    by_cases hk : k = key
    · subst hk
      simp only [mapSet, if_pos rfl, mapGet]
      rw [if_neg (Ne.symm h), if_neg (Ne.symm h)]
    · simp only [mapSet, if_neg hk, mapGet]
      by_cases hkk : k = k'
      · simp [hkk]
      · simp [hkk, ih]

theorem mem_mapSet {p : AllowedInjury × FinalInjury} {key : AllowedInjury}
    {v : FinalInjury} {acc : List (AllowedInjury × FinalInjury)}
    (h : p ∈ mapSet key v acc) : p = (key, v) ∨ p ∈ acc := by
  induction acc with
  | nil => simpa [mapSet] using h
  | cons q rest ih =>
    obtain ⟨k, w⟩ := q
    simp only [mapSet] at h
    split at h
    · rcases List.mem_cons.mp h with h' | h'
      · exact Or.inl h'
      · exact Or.inr (List.mem_cons_of_mem _ h')
    · rcases List.mem_cons.mp h with h' | h'
      · exact Or.inr (by rw [h']; exact List.mem_cons_self _ _)
      · rcases ih h' with h'' | h''
        · exact Or.inl h''
        · exact Or.inr (List.mem_cons_of_mem _ h'')

theorem mapGet_eq_none_iff {key : AllowedInjury}
    {acc : List (AllowedInjury × FinalInjury)} :
    mapGet key acc = none ↔ key ∉ acc.map Prod.fst := by
  induction acc with
  | nil => simp [mapGet]
  | cons p rest ih =>
    obtain ⟨k, w⟩ := p
    simp only [mapGet, List.map_cons, List.mem_cons]
    by_cases hk : k = key
    · simp [hk]
    · rw [if_neg hk, ih]
      constructor
      · intro hn
        push_neg
        exact ⟨fun he => hk he.symm, hn⟩
      · intro hn
        push_neg at hn
        exact hn.2

theorem map_fst_mapSet_of_get_some {key : AllowedInjury} {w : FinalInjury}
    {acc : List (AllowedInjury × FinalInjury)} (h : mapGet key acc = some w)
    (v : FinalInjury) :
    (mapSet key v acc).map Prod.fst = acc.map Prod.fst := by
  induction acc with
  | nil => simp [mapGet] at h
  | cons p rest ih =>
    obtain ⟨k, u⟩ := p
    by_cases hk : k = key
    · simp [mapSet, hk]
    · simp only [mapGet, if_neg hk] at h
      simp [mapSet, hk, ih h]

theorem map_fst_mapSet_of_get_none {key : AllowedInjury}
    {acc : List (AllowedInjury × FinalInjury)} (h : mapGet key acc = none)
    (v : FinalInjury) :
    (mapSet key v acc).map Prod.fst = acc.map Prod.fst ++ [key] := by
  induction acc with
  | nil => simp [mapSet]
  | cons p rest ih =>
    obtain ⟨k, u⟩ := p
    by_cases hk : k = key
    · simp [mapGet, hk] at h
    · simp only [mapGet, if_neg hk] at h
      simp [mapSet, hk, ih h]

theorem mapGet_mem {key : AllowedInjury} {v : FinalInjury}
    {acc : List (AllowedInjury × FinalInjury)} (h : mapGet key acc = some v) :
    (key, v) ∈ acc := by
  induction acc with
  | nil => simp [mapGet] at h
  | cons p rest ih =>
    obtain ⟨k, w⟩ := p
    simp only [mapGet] at h
    split at h
    · rename_i hk
      subst hk
      cases Option.some.inj h
      exact List.mem_cons_self _ _
    · exact List.mem_cons_of_mem _ (ih h)

/-- The invariant maintained by the rule 6 fold: distinct keys, each value
labelled by its key, and every value copied from some mention of `ms`. -/
def DedupInv (ms : List InjuryMention)
    (acc : List (AllowedInjury × FinalInjury)) : Prop :=
  (acc.map Prod.fst).Nodup ∧
  ∀ p ∈ acc, p.2.matched_injury = p.1 ∧
    ∃ m ∈ ms, m.injury_candidate = some p.1 ∧ m.text = p.2.phrase

theorem dedupInsert_inv {ms : List InjuryMention}
    {acc : List (AllowedInjury × FinalInjury)} {m : InjuryMention}
    (hm : m ∈ ms) (h : DedupInv ms acc) : DedupInv ms (dedupInsert acc m) := by
  obtain ⟨hnd, htrace⟩ := h
  cases hcand : m.injury_candidate with
  | none => simpa [dedupInsert, hcand] using ⟨hnd, htrace⟩
  | some key =>
    have hset : DedupInv ms (mapSet key ⟨m.text, key⟩ acc) := by
      constructor
      · cases hget : mapGet key acc with
        | none =>
          rw [map_fst_mapSet_of_get_none hget, List.nodup_append]
          refine ⟨hnd, List.nodup_singleton _, ?_⟩
          intro a ha hb
          simp only [List.mem_singleton] at hb
          subst hb
          exact (mapGet_eq_none_iff.mp hget) ha
        | some w =>
          rw [map_fst_mapSet_of_get_some hget]
          exact hnd
      · intro p hp
        rcases mem_mapSet hp with rfl | hp'
        · exact ⟨rfl, m, hm, hcand, rfl⟩
        · exact htrace p hp'
    cases hget : mapGet key acc with
    | none => simpa [dedupInsert, hcand, hget] using hset
    | some existing =>
      by_cases hrep : shouldReplace m existing = true
      · simpa [dedupInsert, hcand, hget, hrep] using hset
      · simpa [dedupInsert, hcand, hget, hrep] using ⟨hnd, htrace⟩

theorem foldl_dedupInsert_inv {ms : List InjuryMention} :
    ∀ (l : List InjuryMention) (acc : List (AllowedInjury × FinalInjury)),
      (∀ m ∈ l, m ∈ ms) → DedupInv ms acc →
      DedupInv ms (List.foldl dedupInsert acc l)
  | [], _, _, h => h
  | m :: rest, acc, hsub, h =>
    foldl_dedupInsert_inv rest (dedupInsert acc m)
      (fun x hx => hsub x (List.mem_cons_of_mem _ hx))
      (dedupInsert_inv (hsub m (List.mem_cons_self _ _)) h)

theorem dedup_inv (ms : List InjuryMention) : DedupInv ms (dedup ms) :=
  foldl_dedupInsert_inv ms [] (fun _ h => h) ⟨by simp, by simp⟩

theorem dedup_entry_trace {ms : List InjuryMention} {f : FinalInjury}
    (hf : f ∈ (dedup ms).map Prod.snd) :
    ∃ m ∈ ms, m.injury_candidate = some f.matched_injury ∧ m.text = f.phrase := by
  obtain ⟨p, hp, hsnd⟩ := List.mem_map.mp hf
  obtain ⟨hkey, m, hm, hcand, htext⟩ := (dedup_inv ms).2 p hp
  subst hsnd
  rw [← hkey] at hcand
  exact ⟨m, hm, hcand, htext⟩

theorem dedup_labels_pairwise (ms : List InjuryMention) :
    ((dedup ms).map Prod.snd).Pairwise
      (fun a b => a.matched_injury ≠ b.matched_injury) := by
  obtain ⟨hnd, htrace⟩ := dedup_inv ms
  have hcongr : (dedup ms).map Prod.fst =
      (dedup ms).map (fun p => p.2.matched_injury) := by
    refine List.map_congr_left ?_
    intro p hp
    exact ((htrace p hp).1).symm
  rw [hcongr] at hnd
  rw [List.pairwise_map]
  exact List.pairwise_map.mp hnd

/-! ## Facts about the rule 7 comparator -/

theorem findRep_isSome {ms : List InjuryMention} {f : FinalInjury}
    (h : ∃ m ∈ ms, m.injury_candidate = some f.matched_injury ∧
      m.text = f.phrase) : (findRep ms f).isSome := by
  obtain ⟨m, hm, hc, ht⟩ := h
  cases hfind : findRep ms f with
  | some _ => rfl
  | none =>
    have := List.find?_eq_none.mp hfind m hm
    simp [hc, ht] at this

theorem sortLE_some_some {ms : List InjuryMention} {a b : FinalInjury}
    {ma mb : InjuryMention} (h1 : findRep ms a = some ma)
    (h2 : findRep ms b = some mb) :
    sortLE ms a b =
      if ma.start_char ≠ mb.start_char then decide (ma.start_char < mb.start_char)
      else labelLE a.matched_injury.val b.matched_injury.val := by
  simp [sortLE, h1, h2]

theorem sortLE_total (ms : List InjuryMention) (a b : FinalInjury) :
    sortLE ms a b = true ∨ sortLE ms b a = true := by
  cases h1 : findRep ms a with
  | none =>
    cases h2 : findRep ms b with
    | none => simpa [sortLE, h1, h2] using labelLE_total _ _
    | some mb => simpa [sortLE, h1, h2] using labelLE_total _ _
  | some ma =>
    cases h2 : findRep ms b with
    | none => simpa [sortLE, h1, h2] using labelLE_total _ _
    | some mb =>
      rw [sortLE_some_some h1 h2, sortLE_some_some h2 h1]
      by_cases hss : ma.start_char = mb.start_char
      · rw [if_neg (by omega), if_neg (by omega)]
        exact labelLE_total _ _
      · rcases Nat.lt_or_ge ma.start_char mb.start_char with hlt | hge
        · left
          rw [if_pos hss]
          exact decide_eq_true hlt
        · right
          rw [if_pos (by omega)]
          exact decide_eq_true (by omega)

theorem sortLE_trans {ms : List InjuryMention} {a b c : FinalInjury}
    (ha : (findRep ms a).isSome) (hb : (findRep ms b).isSome)
    (hc : (findRep ms c).isSome) (h1 : sortLE ms a b = true)
    (h2 : sortLE ms b c = true) : sortLE ms a c = true := by
  obtain ⟨ma, hma⟩ := Option.isSome_iff_exists.mp ha
  obtain ⟨mb, hmb⟩ := Option.isSome_iff_exists.mp hb
  obtain ⟨mc, hmc⟩ := Option.isSome_iff_exists.mp hc
  simp only [sortLE, hma, hmb, hmc] at h1 h2 ⊢
  by_cases e1 : ma.start_char = mb.start_char <;>
    by_cases e2 : mb.start_char = mc.start_char
  · have e3 : ma.start_char = mc.start_char := e1.trans e2
    simp only [e1, e2, e3, ne_eq, not_true_eq_false, if_false] at h1 h2 ⊢
    exact labelLE_trans h1 h2
  · simp only [e1, ne_eq, not_true_eq_false, if_false] at h1
    simp only [ne_eq, e2, not_false_eq_true, if_true, decide_eq_true_eq] at h2
    have e3 : ma.start_char ≠ mc.start_char := by omega
    simp only [ne_eq, e3, not_false_eq_true, if_true, decide_eq_true_eq]
    omega
  · simp only [ne_eq, e1, not_false_eq_true, if_true, decide_eq_true_eq] at h1
    have e3 : ma.start_char ≠ mc.start_char := by omega
    simp only [ne_eq, e3, not_false_eq_true, if_true, decide_eq_true_eq]
    omega
  · simp only [ne_eq, e1, not_false_eq_true, if_true, decide_eq_true_eq] at h1
    simp only [ne_eq, e2, not_false_eq_true, if_true, decide_eq_true_eq] at h2
    have e3 : ma.start_char ≠ mc.start_char := by omega
    simp only [ne_eq, e3, not_false_eq_true, if_true, decide_eq_true_eq]
    omega

/-! ## Step-by-step containment facts -/

theorem mem_negationStep {config : EvaluatorConfig} {ms : List InjuryMention}
    {m : InjuryMention} (h : m ∈ negationStep config ms) : m ∈ ms := by
  unfold negationStep at h
  split at h
  · exact List.mem_of_mem_filter h
  · exact h

theorem mem_suppressionStep {config : EvaluatorConfig}
    {evidence : Layer1Evidence} {ms ms' : List InjuryMention}
    (h : suppressionStep config evidence ms = some ms') {m : InjuryMention}
    (hm : m ∈ ms') : m ∈ ms := by
  unfold suppressionStep at h
  split at h
  · split at h
    · cases h
      exact hm
    · dsimp only at h
      split at h
      · cases h
      · cases h
        exact List.mem_of_mem_filter hm
  · cases h
    exact hm

theorem mem_preferExplicitStep {config : EvaluatorConfig}
    {ms : List InjuryMention} {m : InjuryMention}
    (h : m ∈ preferExplicitStep config ms) : m ∈ ms := by
  unfold preferExplicitStep at h
  split at h
  · dsimp only at h
    split at h
    · exact h
    · exact List.mem_of_mem_filter h
  · exact h

theorem mem_strictPainStep {config : EvaluatorConfig}
    {ms : List InjuryMention} {m : InjuryMention}
    (h : m ∈ strictPainStep config ms) : m ∈ ms := by
  unfold strictPainStep at h
  split at h
  · exact List.mem_of_mem_filter h
  · exact h

theorem mem_admissibleMentions {evidence : Layer1Evidence} {m : InjuryMention}
    (h : m ∈ admissibleMentions evidence) :
    m ∈ evidence.injury_mentions ∧ m.injury_candidate.isSome := by
  unfold admissibleMentions at h
  exact ⟨(List.mem_filter.mp h).1, (List.mem_filter.mp h).2⟩

theorem mem_survivors {evidence : Layer1Evidence} {config : EvaluatorConfig}
    {m : InjuryMention} (h : m ∈ survivors evidence config) :
    m ∈ evidence.injury_mentions ∧ m.injury_candidate.isSome := by
  unfold survivors at h
  split at h
  · cases h
  · rename_i ms hms
    have h3 := mem_preferExplicitStep (mem_strictPainStep h)
    have h2 := mem_suppressionStep hms h3
    exact mem_admissibleMentions (mem_negationStep h2)

theorem evaluateEvidence_eq (evidence : Layer1Evidence)
    (config : EvaluatorConfig) :
    evaluateEvidence evidence config =
      sortByLE (sortLE (survivors evidence config))
        ((dedup (survivors evidence config)).map Prod.snd) := by
  unfold evaluateEvidence survivors mentionsAfterRule3
  cases h : suppressionStep config evidence
      (negationStep config (admissibleMentions evidence)) with
  | none => simp [h, dedup, sortByLE]
  | some ms => simp [h]

theorem output_trace {evidence : Layer1Evidence} {config : EvaluatorConfig}
    {f : FinalInjury} (h : f ∈ evaluateEvidence evidence config) :
    ∃ m ∈ survivors evidence config,
      m.injury_candidate = some f.matched_injury ∧ m.text = f.phrase := by
  rw [evaluateEvidence_eq] at h
  exact dedup_entry_trace (mem_sortByLE.mp h)

/-! ## Rule-level characterisations -/

theorem mem_survivors_rule2 {evidence : Layer1Evidence}
    {config : EvaluatorConfig} {m : InjuryMention}
    (h : m ∈ survivors evidence config) :
    m ∈ negationStep config (admissibleMentions evidence) := by
  unfold survivors at h
  split at h
  · cases h
  · rename_i ms hms
    exact mem_suppressionStep hms (mem_preferExplicitStep (mem_strictPainStep h))

theorem survivors_not_negated {evidence : Layer1Evidence}
    {config : EvaluatorConfig} {m : InjuryMention}
    (hneg : config.excludeNegated = true) (h : m ∈ survivors evidence config) :
    m.is_negated = false := by
  have h2 := mem_survivors_rule2 h
  unfold negationStep at h2
  rw [if_pos hneg] at h2
  have := (List.mem_filter.mp h2).2
  simpa using this

theorem survivors_pain_admissible {evidence : Layer1Evidence}
    {config : EvaluatorConfig} {m : InjuryMention}
    (hc : config.strictPainEvaluation = true)
    (h : m ∈ survivors evidence config)
    (hp : m.injury_candidate = some painLabel) : painAdmissible m = true := by
  unfold survivors at h
  split at h
  · cases h
  · unfold strictPainStep at h
    rw [if_pos hc] at h
    have := (List.mem_filter.mp h).2
    simpa [hp] using this

theorem strictPainStep_keep_other {config : EvaluatorConfig}
    {ms : List InjuryMention} {m : InjuryMention} (hm : m ∈ ms)
    (h : m.injury_candidate ≠ some painLabel) : m ∈ strictPainStep config ms := by
  unfold strictPainStep
  split
  · exact List.mem_filter.mpr ⟨hm, by simp [h]⟩
  · exact hm

theorem survivors_of_rule3 {evidence : Layer1Evidence}
    {config : EvaluatorConfig} {ms : List InjuryMention}
    (h : mentionsAfterRule3 evidence config = some ms) :
    survivors evidence config =
      strictPainStep config (preferExplicitStep config ms) := by
  unfold survivors
  rw [h]

theorem preferExplicitStep_all_explicit {config : EvaluatorConfig}
    {ms : List InjuryMention} (hc : config.preferExplicit = true)
    (hex : ∃ m ∈ ms, m.certainty = Certainty.explicit) {m : InjuryMention}
    (h : m ∈ preferExplicitStep config ms) :
    m.certainty = Certainty.explicit := by
  unfold preferExplicitStep at h
  rw [if_pos hc] at h
  dsimp only at h
  have hne : (ms.filter fun m =>
      decide (m.certainty = Certainty.explicit)).isEmpty = false := by
    obtain ⟨m', hm', he'⟩ := hex
    have : m' ∈ ms.filter fun m => decide (m.certainty = Certainty.explicit) :=
      List.mem_filter.mpr ⟨hm', by simp [he']⟩
    cases hemp : (ms.filter fun m =>
        decide (m.certainty = Certainty.explicit)).isEmpty
    · rfl
    · rw [List.isEmpty_iff] at hemp
      rw [hemp] at this
      cases this
  rw [hne] at h
  simp only [Bool.false_eq_true, if_false] at h
  have := (List.mem_filter.mp h).2
  simpa using this

theorem preferExplicitStep_id_of_no_explicit {config : EvaluatorConfig}
    {ms : List InjuryMention}
    (hnone : ∀ m ∈ ms, m.certainty ≠ Certainty.explicit) :
    preferExplicitStep config ms = ms := by
  unfold preferExplicitStep
  split
  · dsimp only
    have hfil : (ms.filter fun m =>
        decide (m.certainty = Certainty.explicit)) = [] := by
      rw [List.filter_eq_nil_iff]
      intro m hm
      simp [hnone m hm]
    rw [hfil]
    rfl
  · rfl

theorem latestStatement_end (s : NoInjuryStatement)
    (rest : List NoInjuryStatement) :
    (latestStatement s rest).end_char =
      rest.foldl (fun acc st => max acc st.end_char) s.end_char := by
  induction rest generalizing s with
  | nil => rfl
  | cons t ts ih =>
    unfold latestStatement
    simp only [List.foldl_cons]
    have hstep : ((if t.end_char > s.end_char then t else s) :
        NoInjuryStatement).end_char = max s.end_char t.end_char := by
      by_cases h : t.end_char > s.end_char
      · rw [if_pos h]
        omega
      · rw [if_neg h]
        omega
    rw [← hstep]
    exact ih (if t.end_char > s.end_char then t else s)

theorem rule3_filter_eq (config : EvaluatorConfig) (evidence : Layer1Evidence)
    (off : Nat) :
    (negationStep config (admissibleMentions evidence)).filter (fun m =>
        decide (m.start_char > off) && decide (m.certainty = Certainty.explicit)
          && !m.is_negated) =
      evidence.injury_mentions.filter (fun m =>
        m.injury_candidate.isSome &&
          (decide (m.start_char > off) &&
            decide (m.certainty = Certainty.explicit) && !m.is_negated)) := by
  unfold negationStep admissibleMentions
  split
  · rw [List.filter_filter, List.filter_filter]
    apply List.filter_congr
    intro m _
    cases hn : m.is_negated <;> cases hs : m.injury_candidate.isSome <;> simp [hn, hs]
  · rw [List.filter_filter]
    apply List.filter_congr
    intro m _
    cases hs : m.injury_candidate.isSome <;> simp [hs]

/-! ## The per-label view of the deduplication fold -/

/-- The effect of one rule 6 iteration on the entry of a fixed key `k`,
for a mention whose candidate is `k`. -/
def kstep (k : AllowedInjury) (cur : Option FinalInjury) (m : InjuryMention) :
    Option FinalInjury :=
  match cur with
  | none => some ⟨m.text, k⟩
  | some existing =>
    if shouldReplace m existing then some ⟨m.text, k⟩ else some existing

theorem mapGet_foldl_dedupInsert (k : AllowedInjury) :
    ∀ (l : List InjuryMention) (acc : List (AllowedInjury × FinalInjury)),
      mapGet k (List.foldl dedupInsert acc l) =
        (l.filter (fun m => decide (m.injury_candidate = some k))).foldl
          (kstep k) (mapGet k acc)
  | [], _ => rfl
  | m :: rest, acc => by
    by_cases hc : m.injury_candidate = some k
    · have hfil : (m :: rest).filter
          (fun m => decide (m.injury_candidate = some k)) =
          m :: rest.filter (fun m => decide (m.injury_candidate = some k)) := by
        simp [List.filter_cons, hc]
      rw [hfil, List.foldl_cons, List.foldl_cons,
        mapGet_foldl_dedupInsert k rest (dedupInsert acc m)]
      have hstep : mapGet k (dedupInsert acc m) = kstep k (mapGet k acc) m := by
        unfold dedupInsert
        rw [hc]
        dsimp only
        cases hget : mapGet k acc with
        | none =>
          dsimp only [kstep]
          exact mapGet_mapSet_self _ _ _
        | some existing =>
          dsimp only [kstep]
          by_cases hrep : shouldReplace m existing = true
          · rw [if_pos hrep, if_pos hrep]
            exact mapGet_mapSet_self _ _ _
          · rw [if_neg hrep, if_neg hrep]
            exact hget
      rw [hstep]
    · have hfil : (m :: rest).filter
          (fun m => decide (m.injury_candidate = some k)) =
          rest.filter (fun m => decide (m.injury_candidate = some k)) := by
        simp [List.filter_cons, hc]
      rw [hfil, List.foldl_cons,
        mapGet_foldl_dedupInsert k rest (dedupInsert acc m)]
      have hstep : mapGet k (dedupInsert acc m) = mapGet k acc := by
        unfold dedupInsert
        cases hcand : m.injury_candidate with
        | none => rfl
        | some k' =>
          have hk' : k ≠ k' := by
            intro he
            exact hc (by rw [hcand, he])
          dsimp only
          cases hget : mapGet k' acc with
          | none =>
            dsimp only
            exact mapGet_mapSet_ne hk' _ _
          | some existing =>
            dsimp only
            by_cases hrep : shouldReplace m existing = true
            · rw [if_pos hrep]
              exact mapGet_mapSet_ne hk' _ _
            · rw [if_neg hrep]
      rw [hstep]

theorem mapGet_dedup (k : AllowedInjury) (ms : List InjuryMention) :
    mapGet k (dedup ms) =
      (ms.filter (fun m => decide (m.injury_candidate = some k))).foldl
        (kstep k) none :=
  mapGet_foldl_dedupInsert k ms []

theorem mapGet_some_mem_output {evidence : Layer1Evidence}
    {config : EvaluatorConfig} {k : AllowedInjury} {v : FinalInjury}
    (h : mapGet k (dedup (survivors evidence config)) = some v) :
    v ∈ evaluateEvidence evidence config := by
  rw [evaluateEvidence_eq, mem_sortByLE]
  exact List.mem_map.mpr ⟨(k, v), mapGet_mem h, rfl⟩

/-! ## Sortedness of the output -/

theorem output_findRep_isSome {evidence : Layer1Evidence}
    {config : EvaluatorConfig} {f : FinalInjury}
    (h : f ∈ evaluateEvidence evidence config) :
    (findRep (survivors evidence config) f).isSome := by
  obtain ⟨m, hm, hc, ht⟩ := output_trace h
  exact findRep_isSome ⟨m, hm, hc, ht⟩

theorem output_pairwise_le (evidence : Layer1Evidence)
    (config : EvaluatorConfig) :
    (evaluateEvidence evidence config).Pairwise
      (fun a b => sortLE (survivors evidence config) a b = true) := by
  rw [evaluateEvidence_eq]
  refine pairwise_sortByLE (sortLE_total _) ?_
  intro a ha b hb c hc h1 h2
  have hrep : ∀ x ∈ (dedup (survivors evidence config)).map Prod.snd,
      (findRep (survivors evidence config) x).isSome :=
    fun x hx => findRep_isSome (dedup_entry_trace hx)
  exact sortLE_trans (hrep a ha) (hrep b hb) (hrep c hc) h1 h2

theorem output_labels_pairwise (evidence : Layer1Evidence)
    (config : EvaluatorConfig) :
    (evaluateEvidence evidence config).Pairwise
      (fun a b => a.matched_injury ≠ b.matched_injury) := by
  rw [evaluateEvidence_eq]
  have hperm := perm_sortByLE (sortLE (survivors evidence config))
    ((dedup (survivors evidence config)).map Prod.snd)
  have hsymm : Symmetric (fun a b : FinalInjury =>
      a.matched_injury ≠ b.matched_injury) := fun _ _ h => h.symm
  exact (List.Perm.pairwise_iff (fun {a b} hab => hsymm hab) hperm).mpr
    (dedup_labels_pairwise _)

/-! ## Derived characterisations used in claim statements -/

theorem shouldReplace_iff (m : InjuryMention) (f : FinalInjury) :
    shouldReplace m f = true ↔
      (m.text.length > f.phrase.length ∨
        ∃ b, m.body_site = some b ∧ containsCI f.phrase b = false) := by
  unfold shouldReplace
  cases hb : m.body_site with
  | none => simp
  | some b => simp [hb, Bool.not_eq_true']

theorem painAdmissible_iff (m : InjuryMention) :
    painAdmissible m = true ↔
      ((∃ b, m.body_site = some b ∧ trimChars b.toList ≠ []) ∨
        ((m.temporal_relation_to_fall = TemporalRelation.post_fall ∨
          m.temporal_relation_to_fall = TemporalRelation.during_fall) ∧
          m.certainty = Certainty.explicit)) := by
  unfold painAdmissible
  cases hb : m.body_site with
  | none => simp
  | some b => simp [hb, List.isEmpty_iff]

theorem dedup_two_group {evidence : Layer1Evidence} {config : EvaluatorConfig}
    {k : AllowedInjury} {E L : InjuryMention}
    (hgroup : (survivors evidence config).filter
      (fun m => decide (m.injury_candidate = some k)) = [E, L]) :
    mapGet k (dedup (survivors evidence config)) =
      (if shouldReplace L ⟨E.text, k⟩ = true then (some ⟨L.text, k⟩ : Option FinalInjury)
        else some ⟨E.text, k⟩) := by
  rw [mapGet_dedup, hgroup]
  rfl

/-! ## Concrete inputs used by witnesses and counterexamples -/

/-- A `Layer1Evidence` bundle with just mentions and no-injury statements. -/
def mkEvidence (ms : List InjuryMention) (nis : List NoInjuryStatement) :
    Layer1Evidence :=
  { injury_mentions := ms
    negations := []
    no_injury_statements := nis
    timing_markers := []
    body_sites := []
    metadata := { model_version := "test", extraction_warnings := [] } }

/-- An `InjuryMention` with a `none` negation text. -/
def mkMention (text : String) (cand : Option AllowedInjury)
    (site : Option String) (neg : Bool) (tr : TemporalRelation)
    (c : Certainty) (s e : Nat) : InjuryMention :=
  { text := text, injury_candidate := cand, body_site := site
    is_negated := neg, negation_text := none
    temporal_relation_to_fall := tr, certainty := c
    start_char := s, end_char := e }

def skinTearLabel : AllowedInjury := ⟨"skin tear", by decide⟩

def bruiseLabel : AllowedInjury := ⟨"bruise", by decide⟩

def swellingLabel : AllowedInjury := ⟨"swelling", by decide⟩

/-! ## The claims -/

/-- C1: for every `Layer1Evidence` input and every configuration (also with
`requireExactMatch = false`), every output entry carries a label of the
closed `ALLOWED_INJURIES` vocabulary and is copied from an input mention
whose `injury_candidate` is that label; mentions with a null candidate can
therefore never contribute, whatever the configuration. -/
theorem claim1_vocabulary_admissibility (evidence : Layer1Evidence)
    (config : EvaluatorConfig) (f : FinalInjury)
    (hf : f ∈ evaluateEvidence evidence config) :
    f.matched_injury.val ∈ ALLOWED_INJURIES ∧
    ∃ m ∈ evidence.injury_mentions,
      m.injury_candidate = some f.matched_injury ∧ m.text = f.phrase := by
  obtain ⟨m, hm, hc, ht⟩ := output_trace hf
  exact ⟨f.matched_injury.property, m, (mem_survivors hm).1, hc, ht⟩

def looseConfig : EvaluatorConfig :=
  { excludeNegated := true
    respectNoInjuryStatements := true
    preferExplicit := true
    strictPainEvaluation := true
    requireExactMatch := false }

def evidenceC1 : Layer1Evidence :=
  mkEvidence
    [mkMention "3cm skin tear on right forearm" (some skinTearLabel)
      (some "right forearm") false TemporalRelation.post_fall
      Certainty.explicit 0 32] []

theorem claim1_vocabulary_admissibility_witness :
    "skin tear" ∈ ALLOWED_INJURIES ∧
    ∃ m ∈ evidenceC1.injury_mentions,
      m.injury_candidate = some skinTearLabel ∧
        m.text = "3cm skin tear on right forearm" :=
  claim1_vocabulary_admissibility evidenceC1 looseConfig
    ⟨"3cm skin tear on right forearm", skinTearLabel⟩ (by decide)

/-- C8: the output never contains two entries with the same
`matched_injury` label. -/
theorem claim8_label_uniqueness (evidence : Layer1Evidence)
    (config : EvaluatorConfig) :
    (evaluateEvidence evidence config).Pairwise
      (fun a b => a.matched_injury ≠ b.matched_injury) :=
  output_labels_pairwise evidence config

/-- C9: every output `phrase` is, character for character, the `text` of
some input mention. -/
theorem claim9_verbatim_phrase (evidence : Layer1Evidence)
    (config : EvaluatorConfig) (f : FinalInjury)
    (hf : f ∈ evaluateEvidence evidence config) :
    ∃ m ∈ evidence.injury_mentions, f.phrase = m.text := by
  obtain ⟨m, hm, _, ht⟩ := output_trace hf
  exact ⟨m, (mem_survivors hm).1, ht.symm⟩

theorem claim9_verbatim_phrase_witness :
    ∃ m ∈ evidenceC1.injury_mentions,
      "3cm skin tear on right forearm" = m.text :=
  claim9_verbatim_phrase evidenceC1 DEFAULT_CONFIG
    ⟨"3cm skin tear on right forearm", skinTearLabel⟩ (by decide)

/-- The negated mention of the C4 counterexample. -/
def negatedBruiseMention : InjuryMention :=
  mkMention "bruise on arm" (some bruiseLabel) (some "arm") true
    TemporalRelation.post_fall Certainty.explicit 0 13

/-- Evidence with a negated mention and a non-negated mention carrying the
same text. -/
def duplicateTextEvidence : Layer1Evidence :=
  mkEvidence
    [negatedBruiseMention,
      mkMention "bruise on arm" (some bruiseLabel) (some "arm") false
        TemporalRelation.post_fall Certainty.explicit 20 33] []

/-- C4 fails as stated: with `excludeNegated = true`, an input holding a
negated mention and a distinct non-negated mention with the same text
produces an output entry whose phrase equals the negated mention's text. -/
theorem claim4_negation_phrase_counterexample :
    DEFAULT_CONFIG.excludeNegated = true ∧
    negatedBruiseMention ∈ duplicateTextEvidence.injury_mentions ∧
    negatedBruiseMention.is_negated = true ∧
    ∃ f ∈ evaluateEvidence duplicateTextEvidence DEFAULT_CONFIG,
      f.phrase = negatedBruiseMention.text :=
  ⟨rfl, by decide, rfl, ⟨"bruise on arm", bruiseLabel⟩, by decide, rfl⟩

/-- C4 (amended): with `excludeNegated = true` a negated mention itself
never contributes an entry — every output entry is copied from a
non-negated input mention; a negated mention's text can still appear as a
phrase when a distinct non-negated mention carries identical text. -/
theorem claim4_negation_amended (evidence : Layer1Evidence)
    (config : EvaluatorConfig) (hneg : config.excludeNegated = true)
    (f : FinalInjury) (hf : f ∈ evaluateEvidence evidence config) :
    ∃ m ∈ evidence.injury_mentions, m.is_negated = false ∧
      m.text = f.phrase ∧ m.injury_candidate = some f.matched_injury := by
  obtain ⟨m, hm, hc, ht⟩ := output_trace hf
  exact ⟨m, (mem_survivors hm).1, survivors_not_negated hneg hm, ht, hc⟩

theorem claim4_negation_amended_witness :
    ∃ m ∈ duplicateTextEvidence.injury_mentions, m.is_negated = false ∧
      m.text = "bruise on arm" ∧ m.injury_candidate = some bruiseLabel :=
  claim4_negation_amended duplicateTextEvidence DEFAULT_CONFIG rfl
    ⟨"bruise on arm", bruiseLabel⟩ (by decide)

/-- C6: the output is sorted ascending by the `start_char` of each entry's
representative mention (the first surviving mention whose candidate and
text equal the entry's label and phrase), ties broken by the strictly
alphabetically smaller label. -/
theorem claim6_output_ordering (evidence : Layer1Evidence)
    (config : EvaluatorConfig) :
    (evaluateEvidence evidence config).Pairwise (fun a b =>
      ∃ ma mb, findRep (survivors evidence config) a = some ma ∧
        findRep (survivors evidence config) b = some mb ∧
        (ma.start_char < mb.start_char ∨
          (ma.start_char = mb.start_char ∧
            a.matched_injury.val < b.matched_injury.val))) := by
  have h1 := output_pairwise_le evidence config
  have h2 := output_labels_pairwise evidence config
  have himp : ∀ a ∈ evaluateEvidence evidence config,
      ∀ b ∈ evaluateEvidence evidence config,
      (sortLE (survivors evidence config) a b = true ∧
        a.matched_injury ≠ b.matched_injury) →
      ∃ ma mb, findRep (survivors evidence config) a = some ma ∧
        findRep (survivors evidence config) b = some mb ∧
        (ma.start_char < mb.start_char ∨
          (ma.start_char = mb.start_char ∧
            a.matched_injury.val < b.matched_injury.val)) := by
    intro a ha b hb hab
    obtain ⟨hle, hne⟩ := hab
    obtain ⟨ma, hma⟩ := Option.isSome_iff_exists.mp (output_findRep_isSome ha)
    obtain ⟨mb, hmb⟩ := Option.isSome_iff_exists.mp (output_findRep_isSome hb)
    refine ⟨ma, mb, hma, hmb, ?_⟩
    rw [sortLE_some_some hma hmb] at hle
    by_cases hss : ma.start_char = mb.start_char
    · rw [if_neg (not_ne_iff.mpr hss)] at hle
      refine Or.inr ⟨hss, lt_of_le_of_ne ((labelLE_iff _ _).mp hle) ?_⟩
      intro hv
      exact hne (Subtype.ext hv)
    · rw [if_pos hss] at hle
      exact Or.inl (of_decide_eq_true hle)
  exact List.Pairwise.imp_of_mem (fun ha hb hr => himp _ ha _ hb hr) (h1.and h2)

/-- The long bruise mention of the C2 counterexample. -/
def longBruiseMention : InjuryMention :=
  mkMention "large bruise on right knee" (some bruiseLabel) (some "right knee")
    false TemporalRelation.post_fall Certainty.explicit 0 26

/-- A later, shorter bruise mention with a body site the long phrase does
not contain. -/
def sitedShortBruiseMention : InjuryMention :=
  mkMention "bruise" (some bruiseLabel) (some "left arm") false
    TemporalRelation.post_fall Certainty.explicit 30 36

def overrideEvidence : Layer1Evidence :=
  mkEvidence [longBruiseMention, sitedShortBruiseMention] []

/-- C2 fails as stated: both bruise mentions survive, the group's maximal
text length is 26, yet the output keeps the 6-character phrase, because the
later mention's body site is not contained in the longer phrase — the
body-site check overrides length instead of only breaking ties. -/
theorem claim2_length_preference_counterexample :
    survivors overrideEvidence DEFAULT_CONFIG =
      [longBruiseMention, sitedShortBruiseMention] ∧
    evaluateEvidence overrideEvidence DEFAULT_CONFIG =
      [⟨"bruise", bruiseLabel⟩] ∧
    longBruiseMention.text.length > sitedShortBruiseMention.text.length :=
  ⟨by decide, by decide, by decide⟩

/-- C2 (amended): within a two-mention group processed in input order, the
later mention replaces the earlier representative exactly when its text is
strictly longer or it has a body site the current phrase does not contain
case-insensitively — the body-site disjunct applies regardless of relative
length, so the kept phrase need not be of maximal length; for the two
bruise mentions of lengths 6 and 26 with the longer one later, the longer
phrase is still the single emitted entry. -/
theorem claim2_dedup_replacement_amended (evidence : Layer1Evidence)
    (config : EvaluatorConfig) (k : AllowedInjury) (E L : InjuryMention)
    (hgroup : (survivors evidence config).filter
      (fun m => decide (m.injury_candidate = some k)) = [E, L]) :
    (shouldReplace L ⟨E.text, k⟩ = true →
      (⟨L.text, k⟩ : FinalInjury) ∈ evaluateEvidence evidence config) ∧
    (shouldReplace L ⟨E.text, k⟩ = false →
      (⟨E.text, k⟩ : FinalInjury) ∈ evaluateEvidence evidence config) ∧
    (shouldReplace L ⟨E.text, k⟩ = true ↔
      (L.text.length > E.text.length ∨
        ∃ b, L.body_site = some b ∧ containsCI E.text b = false)) := by
  have hmap := dedup_two_group hgroup
  refine ⟨?_, ?_, shouldReplace_iff L ⟨E.text, k⟩⟩
  · intro hrep
    rw [hrep, if_pos rfl] at hmap
    exact mapGet_some_mem_output hmap
  · intro hrep
    rw [hrep] at hmap
    simp only [Bool.false_eq_true, if_false] at hmap
    exact mapGet_some_mem_output hmap

def scenario4Evidence : Layer1Evidence :=
  mkEvidence
    [mkMention "bruise" (some bruiseLabel) none false
      TemporalRelation.post_fall Certainty.explicit 0 6,
     mkMention "large bruise on right knee" (some bruiseLabel)
      (some "right knee") false TemporalRelation.post_fall
      Certainty.explicit 20 47] []

theorem claim2_dedup_replacement_amended_witness :
    (⟨"large bruise on right knee", bruiseLabel⟩ : FinalInjury) ∈
      evaluateEvidence scenario4Evidence DEFAULT_CONFIG :=
  (claim2_dedup_replacement_amended scenario4Evidence DEFAULT_CONFIG
    bruiseLabel
    (mkMention "bruise" (some bruiseLabel) none false
      TemporalRelation.post_fall Certainty.explicit 0 6)
    (mkMention "large bruise on right knee" (some bruiseLabel)
      (some "right knee") false TemporalRelation.post_fall
      Certainty.explicit 20 47) (by decide)).1 (by decide)

/-- C10: the deduplication tie-break is input-order deterministic — for a
two-mention group with equal-length texts where the later mention has a
null body site or one already contained case-insensitively in the earlier
text, the earlier mention's text is the phrase emitted for that label. -/
theorem claim10_tiebreak_input_order (evidence : Layer1Evidence)
    (config : EvaluatorConfig) (k : AllowedInjury) (E L : InjuryMention)
    (hgroup : (survivors evidence config).filter
      (fun m => decide (m.injury_candidate = some k)) = [E, L])
    (hlen : L.text.length = E.text.length)
    (hsite : L.body_site = none ∨
      ∃ b, L.body_site = some b ∧ containsCI E.text b = true) :
    (⟨E.text, k⟩ : FinalInjury) ∈ evaluateEvidence evidence config := by
  have hmap := dedup_two_group hgroup
  have hrep : shouldReplace L ⟨E.text, k⟩ = false := by
    cases hr : shouldReplace L ⟨E.text, k⟩
    · rfl
    · exfalso
      rcases (shouldReplace_iff L ⟨E.text, k⟩).mp hr with hlong | ⟨b, hb, hcont⟩
      · simp only at hlong
        omega
      · rcases hsite with hnone | ⟨b', hb', hcont'⟩
        · rw [hnone] at hb
          cases hb
        · rw [hb'] at hb
          cases Option.some.inj hb
          rw [hcont'] at hcont
          cases hcont
  rw [hrep] at hmap
  simp only [Bool.false_eq_true, if_false] at hmap
  exact mapGet_some_mem_output hmap

def tieEvidence : Layer1Evidence :=
  mkEvidence
    [mkMention "bruise" (some bruiseLabel) none false
      TemporalRelation.post_fall Certainty.explicit 0 6,
     mkMention "BRUISE" (some bruiseLabel) none false
      TemporalRelation.post_fall Certainty.explicit 40 46] []

theorem claim10_tiebreak_input_order_witness :
    (⟨"bruise", bruiseLabel⟩ : FinalInjury) ∈
      evaluateEvidence tieEvidence DEFAULT_CONFIG :=
  claim10_tiebreak_input_order tieEvidence DEFAULT_CONFIG bruiseLabel
    (mkMention "bruise" (some bruiseLabel) none false
      TemporalRelation.post_fall Certainty.explicit 0 6)
    (mkMention "BRUISE" (some bruiseLabel) none false
      TemporalRelation.post_fall Certainty.explicit 40 46)
    (by decide) (by decide) (Or.inl rfl)

/-- The rule 3 survival condition: admissible, explicit, non-negated,
starting strictly after `off`. -/
def rule3Keep (off : Nat) (m : InjuryMention) : Bool :=
  m.injury_candidate.isSome &&
    (decide (m.start_char > off) &&
      decide (m.certainty = Certainty.explicit) && !m.is_negated)

/-- The maximum `end_char` over a non-empty list of no-injury statements. -/
def maxEndChar (s : NoInjuryStatement) (rest : List NoInjuryStatement) : Nat :=
  rest.foldl (fun acc st => max acc st.end_char) s.end_char

/-- C3: with `respectNoInjuryStatements` on and at least one no-injury
statement, if no admissible, explicit, non-negated mention starts strictly
after the maximum statement `end_char` the output is empty; otherwise
exactly those mentions survive rule 3 into the later steps. -/
theorem claim3_no_injury_suppression (evidence : Layer1Evidence)
    (config : EvaluatorConfig)
    (hr : config.respectNoInjuryStatements = true)
    (s : NoInjuryStatement) (rest : List NoInjuryStatement)
    (hnis : evidence.no_injury_statements = s :: rest) :
    ((evidence.injury_mentions.filter (rule3Keep (maxEndChar s rest))) = [] →
      evaluateEvidence evidence config = []) ∧
    ((evidence.injury_mentions.filter (rule3Keep (maxEndChar s rest))) ≠ [] →
      mentionsAfterRule3 evidence config =
        some (evidence.injury_mentions.filter
          (rule3Keep (maxEndChar s rest)))) := by
  have h1 : (negationStep config (admissibleMentions evidence)).filter
      (fun m => decide (m.start_char > (latestStatement s rest).end_char) &&
        decide (m.certainty = Certainty.explicit) && !m.is_negated) =
      evidence.injury_mentions.filter (rule3Keep (maxEndChar s rest)) := by
    rw [latestStatement_end]
    exact rule3_filter_eq config evidence (maxEndChar s rest)
  have hA : mentionsAfterRule3 evidence config =
      (if (evidence.injury_mentions.filter
            (rule3Keep (maxEndChar s rest))).isEmpty = true
        then none
        else some (evidence.injury_mentions.filter
          (rule3Keep (maxEndChar s rest)))) := by
    unfold mentionsAfterRule3 suppressionStep
    rw [if_pos hr, hnis]
    dsimp only
    rw [h1]
  refine ⟨?_, ?_⟩
  · intro hempty
    have hnone : mentionsAfterRule3 evidence config = none := by
      rw [hA, if_pos (List.isEmpty_iff.mpr hempty)]
    have hsurv : survivors evidence config = [] := by
      unfold survivors
      rw [hnone]
    rw [evaluateEvidence_eq, hsurv]
    rfl
  · intro hne
    rw [hA, if_neg (fun h => hne (List.isEmpty_iff.mp h))]

def onlyDenialEvidence : Layer1Evidence :=
  mkEvidence [] [⟨"no injuries noted", 0, 18⟩]

def lateInjuryEvidence : Layer1Evidence :=
  mkEvidence
    [mkMention "new skin tear on left arm" (some skinTearLabel)
      (some "left arm") false TemporalRelation.post_fall
      Certainty.explicit 100 126]
    [⟨"no injuries noted", 0, 18⟩]

theorem claim3_no_injury_suppression_witness :
    evaluateEvidence onlyDenialEvidence DEFAULT_CONFIG = [] ∧
    mentionsAfterRule3 lateInjuryEvidence DEFAULT_CONFIG =
      some (lateInjuryEvidence.injury_mentions.filter
        (rule3Keep (maxEndChar ⟨"no injuries noted", 0, 18⟩ []))) :=
  ⟨(claim3_no_injury_suppression onlyDenialEvidence DEFAULT_CONFIG rfl
      ⟨"no injuries noted", 0, 18⟩ [] rfl).1 (by decide),
   (claim3_no_injury_suppression lateInjuryEvidence DEFAULT_CONFIG rfl
      ⟨"no injuries noted", 0, 18⟩ [] rfl).2 (by decide)⟩

def lonePainEvidence : Layer1Evidence :=
  mkEvidence
    [mkMention "reports pain" (some painLabel) none false
      TemporalRelation.unknown Certainty.explicit 0 13] []

/-- C5: with `strictPainEvaluation` on, a `pain` entry can only come from a
mention with a non-empty trimmed body site or an explicit post-fall or
during-fall mention; mentions with any other label pass rule 5 unaffected;
a lone pain mention with no body site and unknown timing yields `[]`. -/
theorem claim5_strict_pain (evidence : Layer1Evidence)
    (config : EvaluatorConfig) (hc : config.strictPainEvaluation = true) :
    (∀ f ∈ evaluateEvidence evidence config, f.matched_injury = painLabel →
      ∃ m ∈ evidence.injury_mentions, m.text = f.phrase ∧
        m.injury_candidate = some painLabel ∧
        ((∃ b, m.body_site = some b ∧ trimChars b.toList ≠ []) ∨
          ((m.temporal_relation_to_fall = TemporalRelation.post_fall ∨
            m.temporal_relation_to_fall = TemporalRelation.during_fall) ∧
            m.certainty = Certainty.explicit))) ∧
    (∀ (ms : List InjuryMention) (m : InjuryMention), m ∈ ms →
      m.injury_candidate ≠ some painLabel → m ∈ strictPainStep config ms) ∧
    evaluateEvidence lonePainEvidence DEFAULT_CONFIG = [] := by
  refine ⟨?_, ?_, by decide⟩
  · intro f hf hpain
    obtain ⟨m, hm, hcand, ht⟩ := output_trace hf
    rw [hpain] at hcand
    have hp := survivors_pain_admissible hc hm hcand
    rw [painAdmissible_iff] at hp
    exact ⟨m, (mem_survivors hm).1, ht, hcand, hp⟩
  · intro ms m hm hnp
    exact strictPainStep_keep_other hm hnp

def sitedPainEvidence : Layer1Evidence :=
  mkEvidence
    [mkMention "pain in right shoulder" (some painLabel)
      (some "right shoulder") false TemporalRelation.unknown
      Certainty.explicit 0 23] []

theorem claim5_strict_pain_witness :
    ∃ m ∈ sitedPainEvidence.injury_mentions,
      m.text = "pain in right shoulder" ∧
      m.injury_candidate = some painLabel ∧
      ((∃ b, m.body_site = some b ∧ trimChars b.toList ≠ []) ∨
        ((m.temporal_relation_to_fall = TemporalRelation.post_fall ∨
          m.temporal_relation_to_fall = TemporalRelation.during_fall) ∧
          m.certainty = Certainty.explicit)) :=
  (claim5_strict_pain sitedPainEvidence DEFAULT_CONFIG rfl).1
    ⟨"pain in right shoulder", painLabel⟩ (by decide) rfl

/-- C7: with `preferExplicit` on, when an explicit mention survives rules
1–3 every output entry is copied from an explicit mention (weaker evidence
is fully replaced); when no surviving mention is explicit, rule 4 keeps
the implied and unclear mentions untouched. -/
theorem claim7_prefer_explicit (evidence : Layer1Evidence)
    (config : EvaluatorConfig) (hc : config.preferExplicit = true)
    (ms : List InjuryMention)
    (hms : mentionsAfterRule3 evidence config = some ms) :
    ((∃ m ∈ ms, m.certainty = Certainty.explicit) →
      ∀ f ∈ evaluateEvidence evidence config,
        ∃ m ∈ ms, m.certainty = Certainty.explicit ∧ m.text = f.phrase ∧
          m.injury_candidate = some f.matched_injury) ∧
    ((∀ m ∈ ms, m.certainty ≠ Certainty.explicit) →
      preferExplicitStep config ms = ms) := by
  constructor
  · intro hex f hf
    obtain ⟨m, hm, hcand, ht⟩ := output_trace hf
    rw [survivors_of_rule3 hms] at hm
    have hm4 := mem_strictPainStep hm
    exact ⟨m, mem_preferExplicitStep hm4,
      preferExplicitStep_all_explicit hc hex hm4, ht, hcand⟩
  · intro hnone
    exact preferExplicitStep_id_of_no_explicit hnone

def mixedCertaintyMentions : List InjuryMention :=
  [mkMention "swelling" (some swellingLabel) none false
    TemporalRelation.post_fall Certainty.implied 0 8,
   mkMention "skin tear on arm" (some skinTearLabel) (some "arm") false
    TemporalRelation.post_fall Certainty.explicit 20 36]

def mixedCertaintyEvidence : Layer1Evidence :=
  mkEvidence mixedCertaintyMentions []

theorem claim7_prefer_explicit_witness :
    ∃ m ∈ mixedCertaintyMentions, m.certainty = Certainty.explicit ∧
      m.text = "skin tear on arm" ∧
      m.injury_candidate = some skinTearLabel :=
  (claim7_prefer_explicit mixedCertaintyEvidence DEFAULT_CONFIG rfl
    mixedCertaintyMentions (by decide)).1
    ⟨mkMention "skin tear on arm" (some skinTearLabel) (some "arm") false
      TemporalRelation.post_fall Certainty.explicit 20 36,
      by decide, rfl⟩
    ⟨"skin tear on arm", skinTearLabel⟩ (by decide)
